import Mathlib

/-!
A verification development for the FantasticLauncher artifact acquisition
engine.  The JavaScript sources (launcher.js, utils.js, game.js,
asset-verifier.js) are shallowly embedded below: pure functions become Lean
functions, the on-disk state becomes an explicit map from path strings to
file contents, and the asynchronous worker pool becomes a small-step
relation on a pool state.  External effects (the network, the SHA-1
routine of the crypto library) are passed in as explicit parameters.
-/

namespace FL

/-! ## Conflict resolver (asset-verifier.js)

A library entry of a version JSON.  Conflict detection and resolution read
only the `name` field (a Maven-style coordinate string), so the embedding
keeps exactly that field; `identifyLibraryConflicts` and
`resolveLibraryConflicts` below mirror asset-verifier.js lines 204-269. -/
structure Library where
  name : Option String
deriving DecidableEq, Repr

/-- Split a character list at every occurrence of a separator, mirroring the
JS `String.prototype.split` with a one-character separator. -/
def splitChars (sep : Char) : List Char → List (List Char)
  | [] => [[]]
  | c :: cs =>
    let r := splitChars sep cs
    if c = sep then [] :: r
    else
      match r with
      | h :: t => (c :: h) :: t
      | [] => [[c]]

/-- JS `name.split(":")`, over the string's character list (kept executable
for the kernel, unlike `String.splitOn`). -/
def splitColon (n : String) : List String :=
  (splitChars ':' n.data).map (fun l => String.mk l)

/-- Base name of a coordinate: the JS code splits on a colon and, when at
least two segments are present, joins the first two
(`nameParts[0]:nameParts[1]`); otherwise the library is skipped. -/
def libBaseName (n : String) : Option String :=
  match splitColon n with
  | g :: a :: _ => some (g ++ ":" ++ a)
  | _ => none

/-- Key of a library, when its name exists and has at least two segments. -/
def libKeyOf (lib : Library) : Option String :=
  lib.name.bind libBaseName

/-- Insertion-ordered string map mirroring a JS `Map<string,string>`:
`set` overwrites in place, otherwise appends. -/
def mapSet (m : List (String × String)) (k v : String) : List (String × String) :=
  if m.any (fun p => p.1 = k) then
    m.map (fun p => if p.1 = k then (k, v) else p)
  else m ++ [(k, v)]

/-- Lookup in the insertion-ordered map (JS `Map.get`). -/
def mapGet (m : List (String × String)) (k : String) : Option String :=
  (m.find? (fun p => p.1 = k)).map (fun p => p.2)

/-- One iteration of the map-building loop of `identifyLibraryConflicts`:
a library with a named coordinate of at least two segments is inserted
under its base name, overwriting a previous entry with the same base name;
other libraries leave the map unchanged.  The JS map stores the library
object but only its `name` is ever read, so the embedding stores the full
coordinate string. -/
def libMapStep (m : List (String × String)) (lib : Library) : List (String × String) :=
  match lib.name with
  | some n =>
    match libBaseName n with
    | some k => mapSet m k n
    | none => m
  | none => m

/-- The `minecraftLibMap` of `identifyLibraryConflicts`. -/
def buildLibMap (libs : List Library) : List (String × String) :=
  libs.foldl libMapStep []

/-- A conflict record as produced by `identifyLibraryConflicts`. -/
structure Conflict where
  baseName : String
  minecraft : String
  fabric : String
deriving DecidableEq, Repr

/-- The conflict check performed for one overlay (fabric) library against
the base map: when the overlay coordinate has a base name that is present
in the map and the mapped full coordinate differs, a conflict is produced. -/
def conflictOf (m : List (String × String)) (flib : Library) : Option Conflict :=
  match flib.name with
  | some fn =>
    match libBaseName fn with
    | some k =>
      match mapGet m k with
      | some mn => if mn ≠ fn then some ⟨k, mn, fn⟩ else none
      | none => none
    | none => none
  | none => none

/-- asset-verifier.js `identifyLibraryConflicts` (lines 204-245): build the
base map, then for every overlay (fabric) library whose base name is in the
map and whose full coordinate differs from the mapped one, push a conflict. -/
def identifyLibraryConflicts (mcLibs fabricLibs : List Library) : List Conflict :=
  let m := buildLibMap mcLibs
  fabricLibs.foldl (fun conflicts flib =>
    match conflictOf m flib with
    | some c => conflicts ++ [c]
    | none => conflicts) []

/-- The filter body of `resolveLibraryConflicts`: keep a base library unless
its base name equals the conflict's base name; libraries without a name or
with fewer than two segments always pass. -/
def keepLib (c : Conflict) (lib : Library) : Bool :=
  match lib.name with
  | none => true
  | some n =>
    match libBaseName n with
    | some k => k ≠ c.baseName
    | none => true

/-- asset-verifier.js `resolveLibraryConflicts` (lines 250-269): for each
conflict, filter out of the base list every library whose base name equals
the conflict's base name.  The fabric (overlay) list is never written, so
the embedding returns the rewritten base list together with the untouched
overlay list. -/
def resolveLibraryConflicts (mcLibs fabricLibs : List Library)
    (conflicts : List Conflict) : List Library × List Library :=
  (conflicts.foldl (fun libs c => libs.filter (keepLib c)) mcLibs, fabricLibs)

example : libBaseName "com.example:foo:1.0" = some "com.example:foo" := by decide
example : libBaseName "bad:coord" = some "bad:coord" := by decide
example : libBaseName "single" = none := by decide

example :
    identifyLibraryConflicts [⟨some "com.example:foo:1.0"⟩] [⟨some "com.example:foo:2.0"⟩]
      = [⟨"com.example:foo", "com.example:foo:1.0", "com.example:foo:2.0"⟩] := by decide

/-! ### Lemmas about the base-library map -/

/-- All keys contributed by a library list, in order. -/
def baseKeys (libs : List Library) : List String :=
  libs.filterMap libKeyOf

/-- The full coordinates of the libraries of `libs` whose base name is `k`,
in order. -/
def keyEntries (libs : List Library) (k : String) : List String :=
  libs.filterMap (fun lib =>
    match lib.name with
    | some n => if libBaseName n = some k then some n else none
    | none => none)

theorem find?_overwrite (m : List (String × String)) (k v : String) :
    List.find? (fun p => p.1 = k) (m.map (fun p => if p.1 = k then (k, v) else p)) =
      (if m.any (fun p => p.1 = k) then some (k, v) else none) := by
  induction m with
  | nil => simp
  | cons p t ih =>
    rw [List.map_cons, List.find?_cons, List.any_cons]
    by_cases hp : p.1 = k
    · simp [hp]
    · rw [if_neg hp]
      have hd : (decide (p.1 = k)) = false := by simp [hp]
      rw [hd]
      simp only [Bool.false_or]
      exact ih

theorem find?_overwrite_other (m : List (String × String)) (k0 v k : String)
    (h : k ≠ k0) :
    List.find? (fun p => p.1 = k) (m.map (fun p => if p.1 = k0 then (k0, v) else p)) =
      List.find? (fun p => p.1 = k) m := by
  induction m with
  | nil => simp
  | cons p t ih =>
    rw [List.map_cons, List.find?_cons, List.find?_cons]
    by_cases hp : p.1 = k0
    · have h1 : ¬ (k0 = k) := fun hh => h hh.symm
      have h2 : ¬ (p.1 = k) := hp ▸ h1
      rw [if_pos hp]
      have e1 : (decide ((k0, v).1 = k)) = false := by simp [h1]
      have e2 : (decide (p.1 = k)) = false := by simp [h2]
      rw [e1, e2]
      exact ih
    · rw [if_neg hp]
      by_cases hk : p.1 = k
      · have e : (decide (p.1 = k)) = true := by simp [hk]
        rw [e]
      · have e : (decide (p.1 = k)) = false := by simp [hk]
        rw [e]
        exact ih

theorem mapGet_mapSet_self (m : List (String × String)) (k v : String) :
    mapGet (mapSet m k v) k = some v := by
  unfold mapSet mapGet
  by_cases hany : m.any (fun p => p.1 = k)
  · rw [if_pos hany, find?_overwrite, if_pos hany]
    rfl
  · have hnone : List.find? (fun p => p.1 = k) m = none := by
      rw [List.find?_eq_none]
      intro x hx hpx
      exact hany (List.any_eq_true.mpr ⟨x, hx, hpx⟩)
    rw [if_neg hany, List.find?_append, hnone]
    simp [List.find?_cons]

theorem mapGet_mapSet_other (m : List (String × String)) (k0 v k : String)
    (h : k ≠ k0) : mapGet (mapSet m k0 v) k = mapGet m k := by
  unfold mapSet mapGet
  by_cases hany : m.any (fun p => p.1 = k0)
  · rw [if_pos hany, find?_overwrite_other m k0 v k h]
  · rw [if_neg hany, List.find?_append]
    have e : List.find? (fun p => p.1 = k) [(k0, v)] = none := by
      have h1 : ¬ (k0 = k) := fun hh => h hh.symm
      simp [List.find?_cons, h1]
    rw [e, Option.or_none]

theorem mem_of_getLast?_eq_some {α : Type} {l : List α} {a : α}
    (h : l.getLast? = some a) : a ∈ l := by
  induction l with
  | nil => simp at h
  | cons x t ih =>
    rw [List.getLast?_cons] at h
    cases ht : t.getLast? with
    | none =>
      rw [ht] at h
      simp only [Option.getD_none, Option.some.injEq] at h
      subst h
      exact List.mem_cons_self x t
    | some b =>
      rw [ht] at h
      simp only [Option.getD_some, Option.some.injEq] at h
      subst h
      exact List.mem_cons_of_mem x (ih ht)

theorem mapGet_foldl_libMapStep (libs : List Library)
    (m : List (String × String)) (k : String) :
    mapGet (libs.foldl libMapStep m) k =
      (match (keyEntries libs k).getLast? with
       | some n => some n
       | none => mapGet m k) := by
  induction libs generalizing m with
  | nil => simp [keyEntries]
  | cons lib t ih =>
    rw [List.foldl_cons]
    cases hname : lib.name with
    | none =>
      have hs : libMapStep m lib = m := by simp [libMapStep, hname]
      have hK : keyEntries (lib :: t) k = keyEntries t k := by
        simp [keyEntries, List.filterMap_cons, hname]
      rw [hs, hK, ih]
    | some n =>
      cases hb : libBaseName n with
      | none =>
        have hs : libMapStep m lib = m := by simp [libMapStep, hname, hb]
        have hK : keyEntries (lib :: t) k = keyEntries t k := by
          simp [keyEntries, List.filterMap_cons, hname, hb]
        rw [hs, hK, ih]
      | some k2 =>
        have hs : libMapStep m lib = mapSet m k2 n := by simp [libMapStep, hname, hb]
        by_cases hk : k2 = k
        · subst hk
          have hK : keyEntries (lib :: t) k2 = n :: keyEntries t k2 := by
            simp [keyEntries, List.filterMap_cons, hname, hb]
          rw [hs, hK, ih]
          cases hE : (keyEntries t k2).getLast? with
          | none =>
            rw [List.getLast?_cons, hE]
            simp [mapGet_mapSet_self]
          | some b =>
            rw [List.getLast?_cons, hE]
            simp
        · have hK : keyEntries (lib :: t) k = keyEntries t k := by
            have : ¬ (libBaseName n = some k) := by
              rw [hb]
              exact fun hh => hk (Option.some.inj hh)
            simp [keyEntries, List.filterMap_cons, hname, this]
          rw [hs, hK, ih]
          cases hE : (keyEntries t k).getLast? with
          | none => simp [mapGet_mapSet_other m k2 n k (fun hh => hk hh.symm)]
          | some b => simp

theorem mapGet_buildLibMap (libs : List Library) (k : String) :
    mapGet (buildLibMap libs) k = (keyEntries libs k).getLast? := by
  unfold buildLibMap
  rw [mapGet_foldl_libMapStep]
  cases h : (keyEntries libs k).getLast? with
  | none => simp [mapGet]
  | some n => simp

theorem mem_keyEntries {libs : List Library} {k n : String} :
    n ∈ keyEntries libs k ↔
      ∃ lib ∈ libs, lib.name = some n ∧ libBaseName n = some k := by
  unfold keyEntries
  rw [List.mem_filterMap]
  constructor
  · rintro ⟨lib, hmem, hf⟩
    cases hname : lib.name with
    | none => rw [hname] at hf; simp at hf
    | some m =>
      simp only [hname] at hf
      by_cases hb : libBaseName m = some k
      · rw [if_pos hb] at hf
        have hmn := Option.some.inj hf
        subst hmn
        exact ⟨lib, hmem, hname, hb⟩
      · rw [if_neg hb] at hf
        simp at hf
  · rintro ⟨lib, hmem, hname, hb⟩
    refine ⟨lib, hmem, ?h⟩
    simp [hname, hb]

theorem mem_baseKeys {libs : List Library} {k : String} :
    k ∈ baseKeys libs ↔ ∃ lib ∈ libs, libKeyOf lib = some k := by
  unfold baseKeys
  rw [List.mem_filterMap]

theorem keyEntries_length_le_one {libs : List Library}
    (h : (baseKeys libs).Nodup) (k : String) :
    (keyEntries libs k).length ≤ 1 := by
  induction libs with
  | nil => simp [keyEntries]
  | cons lib t ih =>
    cases hname : lib.name with
    | none =>
      have hK : keyEntries (lib :: t) k = keyEntries t k := by
        simp [keyEntries, List.filterMap_cons, hname]
      have hB : baseKeys (lib :: t) = baseKeys t := by
        simp [baseKeys, List.filterMap_cons, libKeyOf, hname]
      rw [hK]
      exact ih (hB ▸ h)
    | some n =>
      cases hb : libBaseName n with
      | none =>
        have hK : keyEntries (lib :: t) k = keyEntries t k := by
          simp [keyEntries, List.filterMap_cons, hname, hb]
        have hB : baseKeys (lib :: t) = baseKeys t := by
          simp [baseKeys, List.filterMap_cons, libKeyOf, hname, hb]
        rw [hK]
        exact ih (hB ▸ h)
      | some k2 =>
        have hB : baseKeys (lib :: t) = k2 :: baseKeys t := by
          simp [baseKeys, List.filterMap_cons, libKeyOf, hname, hb]
        rw [hB, List.nodup_cons] at h
        by_cases hk : k2 = k
        · subst hk
          have hK : keyEntries (lib :: t) k2 = n :: keyEntries t k2 := by
            simp [keyEntries, List.filterMap_cons, hname, hb]
          have hnil : keyEntries t k2 = [] := by
            rw [List.eq_nil_iff_forall_not_mem]
            intro x hx
            rcases mem_keyEntries.mp hx with ⟨lib2, hmem2, hname2, hb2⟩
            exact h.1 (mem_baseKeys.mpr ⟨lib2, hmem2, by
              simp [libKeyOf, hname2, hb2]⟩)
          rw [hK, hnil]
          simp
        · have hK : keyEntries (lib :: t) k = keyEntries t k := by
            have : ¬ (libBaseName n = some k) := by
              rw [hb]
              exact fun hh => hk (Option.some.inj hh)
            simp [keyEntries, List.filterMap_cons, hname, this]
          rw [hK]
          exact ih h.2

theorem keyEntries_eq_single {libs : List Library} {k n : String}
    (hnd : (baseKeys libs).Nodup) (hmem : n ∈ keyEntries libs k) :
    keyEntries libs k = [n] := by
  have hle := keyEntries_length_le_one hnd k
  cases hE : keyEntries libs k with
  | nil => rw [hE] at hmem; simp at hmem
  | cons a tl =>
    rw [hE] at hmem hle
    cases tl with
    | nil =>
      simp only [List.mem_singleton] at hmem
      rw [hmem]
    | cons b tl2 => simp at hle

theorem mapGet_buildLibMap_of_mem {libs : List Library} {k n : String}
    (hnd : (baseKeys libs).Nodup) {b : Library} (hmem : b ∈ libs)
    (hname : b.name = some n) (hb : libBaseName n = some k) :
    mapGet (buildLibMap libs) k = some n := by
  have h1 : n ∈ keyEntries libs k := mem_keyEntries.mpr ⟨b, hmem, hname, hb⟩
  rw [mapGet_buildLibMap, keyEntries_eq_single hnd h1]
  rfl

theorem exists_of_mapGet_buildLibMap {libs : List Library} {k n : String}
    (h : mapGet (buildLibMap libs) k = some n) :
    ∃ b ∈ libs, b.name = some n ∧ libBaseName n = some k := by
  rw [mapGet_buildLibMap] at h
  exact mem_keyEntries.mp (mem_of_getLast?_eq_some h)

theorem foldl_conflictOf (m : List (String × String)) (fab : List Library)
    (acc : List Conflict) :
    fab.foldl (fun conflicts flib =>
      match conflictOf m flib with
      | some c => conflicts ++ [c]
      | none => conflicts) acc = acc ++ fab.filterMap (conflictOf m) := by
  induction fab generalizing acc with
  | nil => simp
  | cons f t ih =>
    rw [List.foldl_cons, List.filterMap_cons]
    cases hc : conflictOf m f with
    | none => rw [ih]
    | some c =>
      rw [ih]
      simp

theorem mem_identifyLibraryConflicts {mc fab : List Library} {c : Conflict} :
    c ∈ identifyLibraryConflicts mc fab ↔
      ∃ flib ∈ fab, conflictOf (buildLibMap mc) flib = some c := by
  unfold identifyLibraryConflicts
  rw [foldl_conflictOf]
  simp [List.mem_filterMap]

theorem conflictOf_eq_some {m : List (String × String)} {flib : Library}
    {c : Conflict} :
    conflictOf m flib = some c ↔
      flib.name = some c.fabric ∧ libBaseName c.fabric = some c.baseName ∧
      mapGet m c.baseName = some c.minecraft ∧ c.minecraft ≠ c.fabric := by
  constructor
  · intro h
    cases hname : flib.name with
    | none => rw [conflictOf, hname] at h; simp at h
    | some fn =>
      simp only [conflictOf, hname] at h
      cases hb : libBaseName fn with
      | none =>
        simp only [hb] at h
        exact Option.noConfusion h
      | some k =>
        simp only [hb] at h
        cases hg : mapGet m k with
        | none =>
          simp only [hg] at h
          exact Option.noConfusion h
        | some mn =>
          simp only [hg] at h
          by_cases hne : mn ≠ fn
          · rw [if_pos hne] at h
            have h2 := Option.some.inj h
            subst h2
            exact ⟨rfl, hb, hg, hne⟩
          · rw [if_neg hne] at h
            exact Option.noConfusion h
  · rintro ⟨hname, hb, hg, hne⟩
    simp only [conflictOf, hname, hb, hg, if_pos hne]

theorem resolve_foldl_eq_filter (mc : List Library) (cs : List Conflict) :
    cs.foldl (fun libs c => libs.filter (keepLib c)) mc
      = mc.filter (fun lib => cs.all (fun c => keepLib c lib)) := by
  induction cs generalizing mc with
  | nil => simp
  | cons c t ih =>
    rw [List.foldl_cons, ih, List.filter_filter]
    apply List.filter_congr
    intro lib _
    rw [List.all_cons, Bool.and_comm]

theorem keepLib_eq_false_iff {c : Conflict} {lib : Library} :
    keepLib c lib = false ↔ libKeyOf lib = some c.baseName := by
  cases hname : lib.name with
  | none => simp [keepLib, libKeyOf, hname]
  | some n =>
    cases hb : libBaseName n with
    | none => simp [keepLib, libKeyOf, hname, hb]
    | some k => simp [keepLib, libKeyOf, hname, hb, not_not]

/-- A base library conflicts with the overlay list when it carries a
two-segment-or-more coordinate and some overlay library has the same base
name but a different full coordinate: this is the notion of a conflicting
base entry used by the specification. -/
def conflictsWithOverlay (fab : List Library) (lib : Library) : Bool :=
  match lib.name with
  | some n =>
    match libBaseName n with
    | some k =>
      fab.any (fun f =>
        match f.name with
        | some fn => decide (libBaseName fn = some k) && decide (¬ fn = n)
        | none => false)
    | none => false
  | none => false

/-- The full statement verified for claim C1 (with pairwise-distinct base
keys): exact conflict detection, exact removal of conflicting base
entries, untouched overlay, and idempotence of a second pass. -/
def conflictResolutionSpec (mc fab : List Library) : Prop :=
  (∀ b f : Library, ∀ bn fn k : String, b ∈ mc → f ∈ fab →
    b.name = some bn → f.name = some fn →
    libBaseName bn = some k → libBaseName fn = some k → bn ≠ fn →
    Conflict.mk k bn fn ∈ identifyLibraryConflicts mc fab)
  ∧ (∀ c ∈ identifyLibraryConflicts mc fab,
      (∃ b ∈ mc, b.name = some c.minecraft) ∧
      (∃ f ∈ fab, f.name = some c.fabric) ∧
      libBaseName c.minecraft = some c.baseName ∧
      libBaseName c.fabric = some c.baseName ∧ c.minecraft ≠ c.fabric)
  ∧ (resolveLibraryConflicts mc fab (identifyLibraryConflicts mc fab)).1
      = mc.filter (fun lib => ! conflictsWithOverlay fab lib)
  ∧ (resolveLibraryConflicts mc fab (identifyLibraryConflicts mc fab)).2 = fab
  ∧ identifyLibraryConflicts
      (resolveLibraryConflicts mc fab (identifyLibraryConflicts mc fab)).1 fab = []
  ∧ resolveLibraryConflicts
      (resolveLibraryConflicts mc fab (identifyLibraryConflicts mc fab)).1 fab
      (identifyLibraryConflicts
        (resolveLibraryConflicts mc fab (identifyLibraryConflicts mc fab)).1 fab)
      = ((resolveLibraryConflicts mc fab (identifyLibraryConflicts mc fab)).1, fab)

theorem keyEntries_unique {libs : List Library} {k n1 n2 : String}
    (hnd : (baseKeys libs).Nodup) (h1 : n1 ∈ keyEntries libs k)
    (h2 : n2 ∈ keyEntries libs k) : n1 = n2 := by
  have e := keyEntries_eq_single hnd h1
  rw [e] at h2
  simp only [List.mem_singleton] at h2
  exact h2.symm

theorem conflictsWithOverlay_eq_true {fab : List Library} {lib : Library}
    {n k : String} (hname : lib.name = some n) (hk : libBaseName n = some k) :
    conflictsWithOverlay fab lib = true ↔
      ∃ f ∈ fab, ∃ fn : String, f.name = some fn ∧
        libBaseName fn = some k ∧ fn ≠ n := by
  simp only [conflictsWithOverlay, hname, hk]
  rw [List.any_eq_true]
  constructor
  · rintro ⟨f, hf, hpf⟩
    cases hfname : f.name with
    | none => rw [hfname] at hpf; simp at hpf
    | some fn =>
      simp only [hfname, Bool.and_eq_true, decide_eq_true_eq] at hpf
      exact ⟨f, hf, fn, hfname, hpf.1, hpf.2⟩
  · rintro ⟨f, hf, fn, hfname, hfk, hfn⟩
    refine ⟨f, hf, ?_⟩
    simp [hfname, hfk, hfn]

/-- Claim C1 (amended with the distinct-key hypothesis): with
pairwise-distinct base keys, detection reports exactly the conflicting
pairs, resolution removes exactly the conflicting base entries and leaves
the overlay untouched, and resolution is idempotent. -/
theorem claim1_conflict_resolution (mc fab : List Library)
    (hnd : (baseKeys mc).Nodup) : conflictResolutionSpec mc fab := by
  have hdet : ∀ b f : Library, ∀ bn fn k : String, b ∈ mc → f ∈ fab →
      b.name = some bn → f.name = some fn →
      libBaseName bn = some k → libBaseName fn = some k → bn ≠ fn →
      Conflict.mk k bn fn ∈ identifyLibraryConflicts mc fab := by
    intro b f bn fn k hbmem hfmem hbname hfname hbk hfk hne
    apply mem_identifyLibraryConflicts.mpr
    refine ⟨f, hfmem, ?_⟩
    apply conflictOf_eq_some.mpr
    exact ⟨hfname, hfk, mapGet_buildLibMap_of_mem hnd hbmem hbname hbk, hne⟩
  have hconv : ∀ c ∈ identifyLibraryConflicts mc fab,
      (∃ b ∈ mc, b.name = some c.minecraft) ∧
      (∃ f ∈ fab, f.name = some c.fabric) ∧
      libBaseName c.minecraft = some c.baseName ∧
      libBaseName c.fabric = some c.baseName ∧ c.minecraft ≠ c.fabric := by
    intro c hc
    rcases mem_identifyLibraryConflicts.mp hc with ⟨f, hfmem, hcf⟩
    rcases conflictOf_eq_some.mp hcf with ⟨hfname, hfk, hg, hne⟩
    rcases exists_of_mapGet_buildLibMap hg with ⟨b, hbmem, hbname, hbk⟩
    exact ⟨⟨b, hbmem, hbname⟩, ⟨f, hfmem, hfname⟩, hbk, hfk, hne⟩
  have hres : (resolveLibraryConflicts mc fab
        (identifyLibraryConflicts mc fab)).1
      = mc.filter (fun lib => ! conflictsWithOverlay fab lib) := by
    show (identifyLibraryConflicts mc fab).foldl
        (fun libs c => libs.filter (keepLib c)) mc = _
    rw [resolve_foldl_eq_filter]
    apply List.filter_congr
    intro lib hmem
    by_cases hcw : conflictsWithOverlay fab lib = true
    · rw [hcw, Bool.not_true]
      cases hname : lib.name with
      | none => simp [conflictsWithOverlay, hname] at hcw
      | some n =>
        cases hk : libBaseName n with
        | none => simp [conflictsWithOverlay, hname, hk] at hcw
        | some k =>
          rcases (conflictsWithOverlay_eq_true hname hk).mp hcw with
            ⟨f, hfmem, fn, hfname, hfk, hfn⟩
          have hcmem : Conflict.mk k n fn ∈ identifyLibraryConflicts mc fab :=
            hdet lib f n fn k hmem hfmem hname hfname hk hfk
              (fun hh => hfn hh.symm)
          have hkeep : keepLib (Conflict.mk k n fn) lib = false := by
            apply keepLib_eq_false_iff.mpr
            simp [libKeyOf, hname, hk]
          have : ¬ ((identifyLibraryConflicts mc fab).all
              (fun c => keepLib c lib) = true) := by
            rw [List.all_eq_true]
            intro hall
            have := hall _ hcmem
            rw [hkeep] at this
            exact Bool.noConfusion this
          exact Bool.eq_false_iff.mpr this
    · have hcwf : conflictsWithOverlay fab lib = false :=
        Bool.eq_false_iff.mpr hcw
      rw [hcwf, Bool.not_false]
      have hall : ∀ c ∈ identifyLibraryConflicts mc fab,
          keepLib c lib = true := by
        intro c hc
        by_contra hfalse
        have hkf : keepLib c lib = false :=
          Bool.eq_false_iff.mpr hfalse
        have hkey : libKeyOf lib = some c.baseName :=
          keepLib_eq_false_iff.mp hkf
        cases hname : lib.name with
        | none => rw [libKeyOf, hname] at hkey; exact Option.noConfusion hkey
        | some n =>
          rw [libKeyOf, hname, Option.some_bind] at hkey
          rcases hconv c hc with ⟨⟨b, hbmem, hbname⟩, ⟨f, hfmem, hfname⟩,
            hbk, hfk, hne⟩
          have h1 : n ∈ keyEntries mc c.baseName :=
            mem_keyEntries.mpr ⟨lib, hmem, hname, hkey⟩
          have h2 : c.minecraft ∈ keyEntries mc c.baseName :=
            mem_keyEntries.mpr ⟨b, hbmem, hbname, hbk⟩
          have heq : n = c.minecraft := keyEntries_unique hnd h1 h2
          have : conflictsWithOverlay fab lib = true := by
            apply (conflictsWithOverlay_eq_true hname hkey).mpr
            refine ⟨f, hfmem, c.fabric, hfname, hfk, ?h⟩
            rw [heq]
            exact fun hh => hne hh.symm
          rw [this] at hcwf
          exact Bool.noConfusion hcwf
      rw [List.all_eq_true]
      exact hall
  have hidem : identifyLibraryConflicts
      (resolveLibraryConflicts mc fab (identifyLibraryConflicts mc fab)).1 fab
      = [] := by
    rw [List.eq_nil_iff_forall_not_mem]
    intro c hc
    rcases mem_identifyLibraryConflicts.mp hc with ⟨f, hfmem, hcf⟩
    rcases conflictOf_eq_some.mp hcf with ⟨hfname, hfk, hg, hne⟩
    rcases exists_of_mapGet_buildLibMap hg with ⟨b, hbmem, hbname, hbk⟩
    rw [hres] at hbmem
    rcases List.mem_filter.mp hbmem with ⟨hbmc, hbkeep⟩
    have hcw : conflictsWithOverlay fab b = true := by
      apply (conflictsWithOverlay_eq_true hbname hbk).mpr
      exact ⟨f, hfmem, c.fabric, hfname, hfk, fun hh => hne hh.symm⟩
    rw [hcw] at hbkeep
    exact Bool.noConfusion hbkeep
  refine ⟨hdet, hconv, hres, rfl, hidem, ?idem2⟩
  rw [hidem]
  rfl

/-- Claim C1 counterexample: with two base libraries sharing the key
`g:a`, the last one wins in the base map, so the genuinely conflicting
pair (base `g:a:1`, overlay `g:a:2`) is never reported and nothing is
removed, contradicting the exactness asserted by the claim. -/
theorem claim1_counterexample :
    identifyLibraryConflicts
        [Library.mk (some "g:a:1"), Library.mk (some "g:a:2")]
        [Library.mk (some "g:a:2")] = []
    ∧ Library.mk (some "g:a:1")
        ∈ [Library.mk (some "g:a:1"), Library.mk (some "g:a:2")]
    ∧ Library.mk (some "g:a:2") ∈ [Library.mk (some "g:a:2")]
    ∧ libBaseName "g:a:1" = some "g:a"
    ∧ libBaseName "g:a:2" = some "g:a"
    ∧ "g:a:1" ≠ "g:a:2"
    ∧ (resolveLibraryConflicts
        [Library.mk (some "g:a:1"), Library.mk (some "g:a:2")]
        [Library.mk (some "g:a:2")]
        (identifyLibraryConflicts
          [Library.mk (some "g:a:1"), Library.mk (some "g:a:2")]
          [Library.mk (some "g:a:2")])).1
      = [Library.mk (some "g:a:1"), Library.mk (some "g:a:2")] := by
  decide

/-- Witness instantiating `claim1_conflict_resolution` at a concrete pair
of descriptors with distinct base keys. -/
theorem claim1_conflict_resolution_witness :
    (baseKeys [Library.mk (some "com.example:foo:1.0"),
      Library.mk (some "org.x:bar:1")]).Nodup
    ∧ conflictResolutionSpec
        [Library.mk (some "com.example:foo:1.0"),
          Library.mk (some "org.x:bar:1")]
        [Library.mk (some "com.example:foo:2.0")] :=
  ⟨by decide, claim1_conflict_resolution _ _ (by decide)⟩

theorem libBaseName_eq_none_of_short {n : String}
    (h : (splitColon n).length < 2) : libBaseName n = none := by
  unfold libBaseName
  cases hs : splitColon n with
  | nil => rfl
  | cons g t =>
    cases t with
    | nil => rfl
    | cons a t2 =>
      rw [hs] at h
      simp at h
      omega

/-- Claim C5 (amended: the code skips base coordinates with fewer than
TWO colon-separated segments, not three): a base library whose name has no
colon is never reported as the base side of a conflict and survives
resolution unchanged. -/
theorem claim5_short_coordinates (mc fab : List Library) (lib : Library)
    (n : String) (hmem : lib ∈ mc) (hname : lib.name = some n)
    (hseg : (splitColon n).length < 2) :
    (∀ c ∈ identifyLibraryConflicts mc fab, c.minecraft ≠ n)
    ∧ lib ∈ (resolveLibraryConflicts mc fab
        (identifyLibraryConflicts mc fab)).1 := by
  have hnone : libBaseName n = none := libBaseName_eq_none_of_short hseg
  constructor
  · intro c hc heq
    rcases mem_identifyLibraryConflicts.mp hc with ⟨f, hf, hcf⟩
    rcases conflictOf_eq_some.mp hcf with ⟨hf1, hf2, hg, hf4⟩
    rcases exists_of_mapGet_buildLibMap hg with ⟨b, hb1, hb2, hbk⟩
    rw [heq, hnone] at hbk
    exact Option.noConfusion hbk
  · show lib ∈ (identifyLibraryConflicts mc fab).foldl
      (fun libs c => libs.filter (keepLib c)) mc
    rw [resolve_foldl_eq_filter]
    apply List.mem_filter.mpr
    refine ⟨hmem, ?_⟩
    rw [List.all_eq_true]
    intro c hc
    simp [keepLib, hname, hnone]

/-- Claim C5 counterexample: the two-segment base coordinate `bad:coord`
IS treated as a conflict candidate (the code only requires two segments),
so an overlay `bad:coord:1.0` makes it reported and removed. -/
theorem claim5_counterexample :
    (splitColon "bad:coord").length < 3
    ∧ identifyLibraryConflicts [Library.mk (some "bad:coord")]
        [Library.mk (some "bad:coord:1.0")]
      = [Conflict.mk "bad:coord" "bad:coord" "bad:coord:1.0"]
    ∧ (resolveLibraryConflicts [Library.mk (some "bad:coord")]
        [Library.mk (some "bad:coord:1.0")]
        (identifyLibraryConflicts [Library.mk (some "bad:coord")]
          [Library.mk (some "bad:coord:1.0")])).1 = [] := by
  decide

/-- Witness instantiating `claim5_short_coordinates` at a concrete
colon-free base coordinate. -/
theorem claim5_short_coordinates_witness :
    Library.mk (some "plainlib") ∈ [Library.mk (some "plainlib")]
    ∧ (splitColon "plainlib").length < 2
    ∧ ((∀ c ∈ identifyLibraryConflicts [Library.mk (some "plainlib")]
          [Library.mk (some "g:a:1")], c.minecraft ≠ "plainlib")
       ∧ Library.mk (some "plainlib")
          ∈ (resolveLibraryConflicts [Library.mk (some "plainlib")]
              [Library.mk (some "g:a:1")]
              (identifyLibraryConflicts [Library.mk (some "plainlib")]
                [Library.mk (some "g:a:1")])).1) :=
  ⟨by decide, by decide,
    claim5_short_coordinates _ _ _ _ (by decide) rfl (by decide)⟩

/-! ## File-system model

The on-disk state is a map from path strings to file contents (a file's
bytes are modeled as the utf8 string the JS code reads and writes). -/

def FS : Type := String → Option String

/-- fs.writeFileSync. -/
def fsWrite (fs : FS) (p c : String) : FS :=
  fun q => if q = p then some c else fs q

/-! ## Descriptor backup and restore (asset-verifier.js) -/

/-- The mutable state of the AssetVerifier that the backup/restore pair
uses: the `modifiedJsonFiles` map from path to original content
(a JS `Map`, embedded like `buildLibMap` as an insertion-ordered list). -/
structure VerifierState where
  modifiedJsonFiles : List (String × String)
deriving DecidableEq, Repr

/-- asset-verifier.js `backupJsonFile` (lines 162-172): when the file
exists, remember its current content under its path; otherwise do
nothing. -/
def backupJsonFile (fs : FS) (st : VerifierState) (p : String) :
    VerifierState :=
  match fs p with
  | some content => ⟨mapSet st.modifiedJsonFiles p content⟩
  | none => st

/-- asset-verifier.js `restoreJsonFiles` (lines 177-199): write every
backed-up content back to its path (a failing write is logged and
skipped — `writeOk` says which writes succeed), collect the successfully
restored paths, then clear the whole map unconditionally.  Returns the new
file system, the new verifier state and the restored list. -/
def restoreJsonFiles (writeOk : String → Bool) (fs : FS)
    (st : VerifierState) : FS × VerifierState × List String :=
  let r := st.modifiedJsonFiles.foldl
    (fun (acc : FS × List String) e =>
      if writeOk e.1 then (fsWrite acc.1 e.1 e.2, acc.2 ++ [e.1]) else acc)
    (fs, [])
  (r.1, ⟨[]⟩, r.2)

/-- asset-verifier.js `processVersionFiles` (lines 101-157), restricted to
its file-system discipline: back up both descriptor files, then (when
conflicts were found) overwrite both with the re-serialized resolved
descriptors.  Parsing, conflict detection and JSON.stringify are abstracted
into the parameters `newMc`, `newFabric` and `hasConflicts`; the claims
about this function concern only the backup/write/restore order. -/
def processVersionFiles (fs : FS) (st : VerifierState)
    (mcPath fabricPath newMc newFabric : String) (hasConflicts : Bool) :
    FS × VerifierState :=
  let st1 := backupJsonFile fs st mcPath
  let st2 := backupJsonFile fs st1 fabricPath
  if hasConflicts then
    (fsWrite (fsWrite fs mcPath newMc) fabricPath newFabric, st2)
  else (fs, st2)

/-- launcher.js `downloadGameFiles` (lines 417-532), restricted to its
descriptor-restore discipline: process the version files (which backs them
up and rewrites them), run the downloads (network effects are outside this
model; `downloadOk` tells which exit path is taken), and restore the
original descriptors on BOTH the success path (step 9, line 491) and the
error path (the catch block, line 525). -/
def downloadGameFiles (writeOk : String → Bool) (fs : FS)
    (st : VerifierState) (mcPath fabricPath newMc newFabric : String)
    (hasConflicts downloadOk : Bool) : FS × VerifierState × Bool :=
  let p := processVersionFiles fs st mcPath fabricPath newMc newFabric
    hasConflicts
  if downloadOk then
    let r := restoreJsonFiles writeOk p.1 p.2
    (r.1, r.2.1, true)
  else
    let r := restoreJsonFiles writeOk p.1 p.2
    (r.1, r.2.1, false)

/-- Claim C2: backing up both descriptors, resolving on disk and restoring
afterwards reproduces the exact original contents of both descriptor
files, on the success exit path and on the error exit path alike
(assuming the restore writes themselves succeed). -/
theorem claim2_restore_roundtrip (fs : FS)
    (mcPath fabricPath newMc newFabric : String)
    (hasConflicts downloadOk : Bool) (c1 c2 : String)
    (hmc : fs mcPath = some c1) (hfab : fs fabricPath = some c2) :
    (downloadGameFiles (fun _ => true) fs ⟨[]⟩ mcPath fabricPath newMc
        newFabric hasConflicts downloadOk).1 mcPath = some c1
    ∧ (downloadGameFiles (fun _ => true) fs ⟨[]⟩ mcPath fabricPath newMc
        newFabric hasConflicts downloadOk).1 fabricPath = some c2 := by
  by_cases heq : fabricPath = mcPath
  · subst heq
    rw [hmc] at hfab
    have hcc := Option.some.inj hfab
    subst hcc
    cases hasConflicts <;> cases downloadOk <;>
      simp [downloadGameFiles, processVersionFiles, backupJsonFile,
        restoreJsonFiles, mapSet, fsWrite, hmc]
  · have hne2 : ¬ (mcPath = fabricPath) := fun h => heq h.symm
    cases hasConflicts <;> cases downloadOk <;>
      simp [downloadGameFiles, processVersionFiles, backupJsonFile,
        restoreJsonFiles, mapSet, fsWrite, hmc, hfab, heq, hne2]

/-- Witness instantiating `claim2_restore_roundtrip` on a concrete
two-descriptor file system, on the error exit path with conflicts. -/
theorem claim2_restore_roundtrip_witness :
    (fun p => if p = "mc.json" then some "MCJSON"
              else if p = "fab.json" then some "FABJSON"
              else none : FS) "mc.json" = some "MCJSON"
    ∧ (fun p => if p = "mc.json" then some "MCJSON"
              else if p = "fab.json" then some "FABJSON"
              else none : FS) "fab.json" = some "FABJSON"
    ∧ ((downloadGameFiles (fun _ => true)
        (fun p => if p = "mc.json" then some "MCJSON"
                  else if p = "fab.json" then some "FABJSON"
                  else none) ⟨[]⟩ "mc.json" "fab.json" "NEWMC" "NEWFAB"
        true false).1 "mc.json" = some "MCJSON"
      ∧ (downloadGameFiles (fun _ => true)
        (fun p => if p = "mc.json" then some "MCJSON"
                  else if p = "fab.json" then some "FABJSON"
                  else none) ⟨[]⟩ "mc.json" "fab.json" "NEWMC" "NEWFAB"
        true false).1 "fab.json" = some "FABJSON") :=
  ⟨by decide, by decide,
    claim2_restore_roundtrip _ "mc.json" "fab.json" "NEWMC" "NEWFAB"
      true false "MCJSON" "FABJSON" (by decide) (by decide)⟩

theorem restore_restored_eq (writeOk : String → Bool)
    (l : List (String × String)) : ∀ (fs : FS) (acc : List String),
    (l.foldl (fun (acc2 : FS × List String) e =>
        if writeOk e.1 then (fsWrite acc2.1 e.1 e.2, acc2.2 ++ [e.1])
        else acc2) (fs, acc)).2
      = acc ++ (l.filter (fun e => writeOk e.1)).map (fun e => e.1) := by
  induction l with
  | nil => intro fs acc; simp
  | cons e t ih =>
    intro fs acc
    rw [List.foldl_cons, List.filter_cons]
    by_cases h : writeOk e.1 = true
    · rw [if_pos h, if_pos h, ih]
      simp
    · rw [if_neg h, if_neg h, ih]

/-- Claim C9: `restoreJsonFiles` clears its whole backup map after one
pass even for entries whose write-back failed; such an entry is absent
from the restored list, and a second call restores nothing and returns an
empty restored list, so a partially failed restoration cannot be retried
from the retained backups. -/
theorem claim9_restore_clears_backups (writeOk : String → Bool) (fs : FS)
    (st : VerifierState) (p c : String)
    (hmem : (p, c) ∈ st.modifiedJsonFiles) (hfail : writeOk p = false) :
    (restoreJsonFiles writeOk fs st).2.1.modifiedJsonFiles = []
    ∧ p ∉ (restoreJsonFiles writeOk fs st).2.2
    ∧ ∀ (writeOk2 : String → Bool) (fs2 : FS),
        restoreJsonFiles writeOk2 fs2 (restoreJsonFiles writeOk fs st).2.1
          = (fs2, ⟨[]⟩, []) := by
  refine ⟨rfl, ?_, ?_⟩
  · intro hp
    have : (restoreJsonFiles writeOk fs st).2.2
        = (st.modifiedJsonFiles.filter (fun e => writeOk e.1)).map
            (fun e => e.1) := by
      show (st.modifiedJsonFiles.foldl _ (fs, [])).2 = _
      rw [restore_restored_eq]
      simp
    rw [this] at hp
    rcases List.mem_map.mp hp with ⟨e, he, hep⟩
    have := (List.mem_filter.mp he).2
    rw [hep, hfail] at this
    exact Bool.noConfusion this
  · intro writeOk2 fs2
    rfl

/-- Witness instantiating `claim9_restore_clears_backups` with a single
backup entry whose write-back fails. -/
theorem claim9_restore_clears_backups_witness :
    ("a", "x") ∈ (VerifierState.mk [("a", "x")]).modifiedJsonFiles
    ∧ (fun _ => false : String → Bool) "a" = false
    ∧ ((restoreJsonFiles (fun _ => false) (fun _ => none)
          ⟨[("a", "x")]⟩).2.1.modifiedJsonFiles = []
      ∧ "a" ∉ (restoreJsonFiles (fun _ => false) (fun _ => none)
          ⟨[("a", "x")]⟩).2.2
      ∧ ∀ (writeOk2 : String → Bool) (fs2 : FS),
          restoreJsonFiles writeOk2 fs2
              (restoreJsonFiles (fun _ => false) (fun _ => none)
                ⟨[("a", "x")]⟩).2.1
            = (fs2, ⟨[]⟩, [])) :=
  ⟨by decide, rfl,
    claim9_restore_clears_backups (fun _ => false) (fun _ => none)
      ⟨[("a", "x")]⟩ "a" "x" (by decide) rfl⟩

/-! ## Hashing and verification

The SHA-1 digest itself is produced by the external crypto library, so it
enters the embedding as a parameter `sha1 : String → String` applied to a
file's content; `computeFileHash` (asset-verifier.js lines 76-96) streams
the file through that digest. -/

/-- JS `toLowerCase`, over the character list. -/
def lowerString (s : String) : String :=
  String.mk (s.data.map Char.toLower)

/-- asset-verifier.js `computeFileHash`: the streamed digest of the file's
bytes, or an error (none) when the file cannot be read. -/
def computeFileHash (sha1 : String → String) (fs : FS) (p : String) :
    Option String :=
  (fs p).map sha1

/-- Result shape of `verifyAsset`: `valid` plus an optional reason. -/
structure VerifyResult where
  valid : Bool
  reason : Option String
deriving DecidableEq, Repr

/-- asset-verifier.js `verifyAsset` (lines 274-290): missing file gives
`file_not_found`; a digest differing case-insensitively from the expected
hash gives `hash_mismatch`; otherwise the asset is valid. -/
def verifyAsset (sha1 : String → String) (fs : FS)
    (assetPath expectedHash : String) : VerifyResult :=
  match fs assetPath with
  | none => ⟨false, some "file_not_found"⟩
  | some content =>
    if lowerString (sha1 content) ≠ lowerString expectedHash then
      ⟨false, some "hash_mismatch"⟩
    else ⟨true, none⟩

/-- utils.js `verifyHash` (lines 281-293): resolves the case-insensitive
digest comparison as a boolean, or rejects (none) when the file cannot be
streamed. -/
def verifyHash (sha1 : String → String) (fs : FS)
    (filePath expectedHash : String) : Option Bool :=
  (fs filePath).map
    (fun content => lowerString (sha1 content) = lowerString expectedHash)

/-- Claim C6: verification returns valid exactly when the streamed digest
equals the expected hash case-insensitively; rewriting the file with
content whose digest differs flips the result to `hash_mismatch`; and the
utils-level `verifyHash` agrees with the same comparison. -/
theorem claim6_verify_iff (sha1 : String → String) (fs : FS)
    (p expected content : String) (hfile : fs p = some content) :
    ((verifyAsset sha1 fs p expected).valid = true ↔
      lowerString (sha1 content) = lowerString expected)
    ∧ (∀ mutated : String,
        lowerString (sha1 mutated) ≠ lowerString expected →
        verifyAsset sha1 (fsWrite fs p mutated) p expected
          = ⟨false, some "hash_mismatch"⟩)
    ∧ verifyHash sha1 fs p expected
        = some (decide (lowerString (sha1 content) = lowerString expected)) := by
  refine ⟨?_, ?_, ?_⟩
  · rw [verifyAsset, hfile]
    by_cases h : lowerString (sha1 content) = lowerString expected
    · simp [h]
    · simp [h]
  · intro mutated hmut
    rw [verifyAsset]
    have hw : fsWrite fs p mutated p = some mutated := by
      simp [fsWrite]
    rw [hw]
    simp [hmut]
  · unfold verifyHash
    rw [hfile]
    rfl

/-- Witness instantiating `claim6_verify_iff` with a toy digest. -/
theorem claim6_verify_iff_witness :
    (fun q => if q = "objects/ab/abc" then some "DATA" else none : FS)
        "objects/ab/abc" = some "DATA"
    ∧ (((verifyAsset (fun s => String.append s "#")
          (fun q => if q = "objects/ab/abc" then some "DATA" else none)
          "objects/ab/abc" "data#").valid = true ↔
        lowerString (String.append "DATA" "#") = lowerString "data#")
      ∧ (∀ mutated : String,
          lowerString (String.append mutated "#") ≠ lowerString "data#" →
          verifyAsset (fun s => String.append s "#")
            (fsWrite (fun q => if q = "objects/ab/abc" then some "DATA"
                else none) "objects/ab/abc" mutated)
            "objects/ab/abc" "data#" = ⟨false, some "hash_mismatch"⟩)
      ∧ verifyHash (fun s => String.append s "#")
          (fun q => if q = "objects/ab/abc" then some "DATA" else none)
          "objects/ab/abc" "data#"
        = some (decide (lowerString (String.append "DATA" "#")
            = lowerString "data#"))) :=
  ⟨by decide,
    claim6_verify_iff (fun s => String.append s "#") _
      "objects/ab/abc" "data#" "DATA" (by decide)⟩

/-! ## Single-file download (utils.js downloadFile, launcher.js
downloadFile)

The network is modeled by the final response the server gives for the
requested URL (redirect hops re-enter the function with one fewer retry
and are elided: the claims concern the terminal response).  Both
downloadFile implementations (utils.js lines 118-278 and launcher.js
lines 185-291) stream the body to a temp file, rename the temp file onto
the destination, and only then verify the hash — the embedding mirrors
that order. -/

inductive HttpResponse where
  | ok (body : String)
  | status (code : Nat)
  | netError
deriving DecidableEq, Repr

/-- fs.unlinkSync. -/
def fsRemove (fs : FS) (p : String) : FS :=
  fun q => if q = p then none else fs q

/-- The retry loop of `downloadFile`: each attempt streams the response
body to the temp file and renames it onto the destination, deletes the
temp file on an HTTP or network error, verifies the hash AFTER the rename,
and retries (same deterministic response) until the budget is exhausted,
at which point the last error is surfaced. -/
def downloadFileLoop (sha1 : String → String) (response : HttpResponse)
    (dest temp : String) (expectedHash : Option String) :
    Nat → FS → FS × Except String String
  | 0, fs => (fs, Except.error "no attempts")
  | Nat.succ n, fs =>
    match response with
    | .ok body =>
      let fs2 := fsWrite (fsRemove (fsWrite fs temp body) temp) dest body
      match expectedHash with
      | some eh =>
        if lowerString (sha1 body) = lowerString eh then (fs2, .ok dest)
        else if n = 0 then
          (fs2, .error "Hash verification failed")
        else downloadFileLoop sha1 response dest temp expectedHash n fs2
      | none => (fs2, .ok dest)
    | .status code =>
      let fs1 := fsRemove (fsWrite fs temp "") temp
      if n = 0 then (fs1, .error "HTTP status code")
      else downloadFileLoop sha1 response dest temp expectedHash n fs1
    | .netError =>
      let fs1 := fsRemove (fsWrite fs temp "") temp
      if n = 0 then (fs1, .error "network error")
      else downloadFileLoop sha1 response dest temp expectedHash n fs1

/-- utils.js `downloadFile` (lines 118-278): if the destination already
exists with a matching hash the download is skipped; otherwise the retry
loop runs. -/
def downloadFile (sha1 : String → String) (response : HttpResponse)
    (fs : FS) (dest temp : String) (retries : Nat)
    (expectedHash : Option String) : FS × Except String String :=
  match expectedHash, fs dest with
  | some eh, some existing =>
    if lowerString (sha1 existing) = lowerString eh then (fs, .ok dest)
    else downloadFileLoop sha1 response dest temp expectedHash retries fs
  | _, _ => downloadFileLoop sha1 response dest temp expectedHash retries fs

/-- Claim C3 evidence: a download whose body hashes differently from the
supplied expectedHash fails with the hash-verification error, yet the
corrupt body IS present at the final destination path afterwards (the code
renames the temp file into place before verifying and never deletes it on
mismatch), contradicting the claim that the destination is absent. -/
theorem claim3_corrupt_file_left_at_destination :
    (downloadFile (fun s => String.append s "#") (HttpResponse.ok "corrupt")
        (fun _ => none) "libs/a.jar" "libs/a.jar.tmp" 3
        (some "good#")).2 = Except.error "Hash verification failed"
    ∧ (downloadFile (fun s => String.append s "#")
        (HttpResponse.ok "corrupt") (fun _ => none) "libs/a.jar"
        "libs/a.jar.tmp" 3 (some "good#")).1 "libs/a.jar"
      = some "corrupt" :=
  ⟨rfl, rfl⟩

/-! ## Download progress (launcher.js getProgress)

launcher.js lines 1583-1591 compute
`Math.floor((completed / total) * 100)` in IEEE-754 binary64 arithmetic
(JS numbers).  The embedding models the two binary64 operations exactly:
a positive rational is rounded to the nearest representable double (ties
to even) as a mantissa-exponent pair `(m, e)` of value `m * 2^(e-52)`
with `2^52 ≤ m ≤ 2^53`, using integer arithmetic only.  The model is
exact over the normal range, which covers every state whose counters are
below `2^53` (the launcher only ever increments them by one); the zero
dividend is handled separately because binary64 gives exactly 0 there. -/

/-- Floor of the base-2 logarithm, fuel-structured so the kernel can
evaluate it (`natLog2 n` with fuel `n` suffices since the recursion
halves its argument). -/
def log2Fuel : Nat → Nat → Nat
  | 0, _ => 0
  | f + 1, n => if 2 ≤ n then log2Fuel f (n / 2) + 1 else 0

def natLog2 (n : Nat) : Nat := log2Fuel n n

/-- Round the positive rational `a / b` (with `a, b ≥ 1`) to the nearest
binary64 value, ties to even: pick the binade exponent `e` with
`2^e ≤ a/b < 2^(e+1)` (via the floor logs of `a` and `b`, corrected by
one exact comparison), scale to `[2^52, 2^53)` and round the scaled
quotient to the nearest integer, halfway cases to the even mantissa. -/
def roundFloat (a b : Nat) : Nat × Int :=
  let la := natLog2 a
  let lb := natLog2 b
  let e : Int :=
    if b * 2 ^ la ≤ a * 2 ^ lb then (la : Int) - lb else (la : Int) - lb - 1
  let sh : Int := 52 - e
  let N := if 0 ≤ sh then a * 2 ^ sh.toNat else a
  let D := if 0 ≤ sh then b else b * 2 ^ (-sh).toNat
  let m0 := N / D
  let r := N % D
  let m := if 2 * r < D then m0
           else if D < 2 * r then m0 + 1
           else if m0 % 2 = 0 then m0 else m0 + 1
  (m, e)

/-- The binary64 product `x * 100` for a double `x = m * 2^(e-52)`:
the exact product re-rounded to the nearest double. -/
def fpMulHundred (p : Nat × Int) : Nat × Int :=
  if 52 ≤ p.2 then roundFloat (100 * p.1 * 2 ^ (p.2 - 52).toNat) 1
  else roundFloat (100 * p.1) (2 ^ (52 - p.2).toNat)

/-- `Math.floor` of a nonnegative double `m * 2^(e-52)` (exact). -/
def floorFloat (p : Nat × Int) : Nat :=
  if 52 ≤ p.2 then p.1 * 2 ^ (p.2 - 52).toNat
  else p.1 / 2 ^ (52 - p.2).toNat

/-- The launcher's `downloadProgress` record. -/
structure DownloadProgress where
  total : Nat
  completed : Nat
  current : String
deriving DecidableEq, Repr

/-- The record returned by `getProgress`. -/
structure ProgressReport where
  total : Nat
  completed : Nat
  current : String
  percentage : Nat
deriving DecidableEq, Repr

/-- launcher.js `getProgress` (lines 1583-1591): percentage is 0 when the
tracked total is 0, otherwise the floor of the binary64 evaluation of
`(completed / total) * 100`. -/
def getProgress (dp : DownloadProgress) : ProgressReport :=
  ⟨dp.total, dp.completed, dp.current,
    if dp.total = 0 then 0
    else if dp.completed = 0 then 0
    else floorFloat (fpMulHundred (roundFloat dp.completed dp.total))⟩

/-- Dividing a nonzero counter by itself is exact in binary64: the result
is exactly 1 (mantissa 2^52, exponent 0). -/
theorem roundFloat_self (t : Nat) (ht : t ≠ 0) :
    roundFloat t t = (2 ^ 52, 0) := by
  have hpos : 0 < t := Nat.pos_of_ne_zero ht
  unfold roundFloat
  simp only [le_refl, if_true, sub_self]
  norm_num
  rw [if_pos hpos, Nat.mul_div_cancel_left _ hpos]
  decide

/-- Claim C10 (amended): the progress query is total for all states —
when the tracked total is 0 it returns percentage 0 rather than dividing
by zero, and otherwise returns the floor of the binary64 evaluation of
`(completed / total) * 100`, which can differ from the exact
`floor(completed * 100 / total)` (28 instead of 29 at completed = 29,
total = 100); at the endpoints the rounding is error-free: percentage 0
when completed is 0 and percentage 100 when completed equals total. -/
theorem claim10_progress_total (dp : DownloadProgress) :
    (getProgress dp).total = dp.total
    ∧ (getProgress dp).completed = dp.completed
    ∧ (dp.total = 0 → (getProgress dp).percentage = 0)
    ∧ (dp.completed = 0 → (getProgress dp).percentage = 0)
    ∧ (dp.total ≠ 0 → dp.completed ≠ 0 →
        (getProgress dp).percentage
          = floorFloat (fpMulHundred (roundFloat dp.completed dp.total)))
    ∧ (dp.total ≠ 0 → dp.completed = dp.total →
        (getProgress dp).percentage = 100) := by
  refine ⟨rfl, rfl, ?_, ?_, ?_, ?_⟩
  · intro h
    simp [getProgress, h]
  · intro h
    unfold getProgress
    by_cases ht : dp.total = 0 <;> simp [ht, h]
  · intro ht hc
    simp [getProgress, ht, hc]
  · intro ht heq
    unfold getProgress
    rw [if_neg ht, if_neg (fun h0 => ht (heq.symm.trans h0))]
    rw [heq, roundFloat_self _ ht]
    show floorFloat (fpMulHundred (2 ^ 52, 0)) = 100
    decide

/-- Claim C10 counterexample: at completed = 29, total = 100 the binary64
value of 29/100 is slightly below 0.29 and the product with 100 is
28.999999999999996, so the code returns percentage 28 — not the exact
floor(29 * 100 / 100) = 29 asserted by the claim. -/
theorem claim10_counterexample :
    (getProgress ⟨100, 29, ""⟩).percentage = 28
    ∧ 29 * 100 / 100 = 29
    ∧ (28 : Nat) ≠ 29 := by
  decide

/-- Witness instantiating `claim10_progress_total` at the state with
total 100 and completed 29. -/
theorem claim10_progress_total_witness :
    ((100 : Nat) ≠ 0 ∧ (29 : Nat) ≠ 0)
    ∧ (getProgress ⟨100, 29, ""⟩).percentage
        = floorFloat (fpMulHundred (roundFloat 29 100)) :=
  ⟨⟨by decide, by decide⟩,
    (claim10_progress_total ⟨100, 29, ""⟩).2.2.2.2.1 (by decide) (by decide)⟩

/-! ## Rule evaluators (game.js checkArgConditions, launcher.js
shouldUseLibrary)

The current platform name and the os.version regular-expression test are
environment queries, passed in as the parameters `cos` (current OS) and
`vm` (version matches). -/

/-- An os restriction of a rule. -/
structure OsRule where
  name : Option String
  version : Option String
deriving DecidableEq, Repr

/-- A rule of a library or of a conditional argument: an optional action
string, an optional os restriction, and whether a `features` clause is
present. -/
structure Rule where
  action : Option String
  os : Option OsRule
  features : Bool
deriving DecidableEq, Repr

/-- One rule of game.js `checkArgConditions` (lines 757-783 of the game
module): `applies` starts as (action === allow), every failing os
predicate flips it, and a features clause forces false. -/
def argRuleApplies (cos : String) (vm : String → Bool) (r : Rule) : Bool :=
  let a0 : Bool := r.action = some "allow"
  let a1 : Bool :=
    match r.os with
    | some o =>
      let b0 : Bool :=
        match o.name with
        | some nm => if nm ≠ cos then !a0 else a0
        | none => a0
      match o.version with
      | some v => if ! vm v then !b0 else b0
      | none => b0
    | none => a0
  if r.features then false else a1

/-- The rule loop of `checkArgConditions`: the first rule that does not
apply returns false (early return), otherwise true. -/
def checkRulesList (cos : String) (vm : String → Bool) : List Rule → Bool
  | [] => true
  | r :: rest =>
    if argRuleApplies cos vm r then checkRulesList cos vm rest else false

/-- game.js `checkArgConditions`: absent rules mean the argument applies. -/
def checkArgConditions (cos : String) (vm : String → Bool)
    (rules : Option (List Rule)) : Bool :=
  match rules with
  | none => true
  | some rs => checkRulesList cos vm rs

/-- Whether a rule matches the current platform in launcher.js
`shouldUseLibrary` (lines 1536-1566): a rule with an os.name different
from the current OS, or an os.version failing the regex test, is skipped
(`continue`). -/
def ruleMatches (cos : String) (vm : String → Bool) (r : Rule) : Bool :=
  match r.os with
  | some o =>
    (match o.name with
     | some nm => nm = cos
     | none => true)
    && (match o.version with
        | some v => vm v
        | none => true)
  | none => true

/-- The action of a rule in `shouldUseLibrary`: anything but an explicit
disallow counts as allow. -/
def ruleAction (r : Rule) : Bool :=
  if r.action = some "disallow" then false else true

/-- The rule loop of launcher.js `shouldUseLibrary`: `allowed` starts
false and every matching rule overwrites it with its action — the LAST
matching rule decides. -/
def shouldUseLibraryRules (cos : String) (vm : String → Bool)
    (rules : List Rule) : Bool :=
  rules.foldl
    (fun allowed r => if ruleMatches cos vm r then ruleAction r else allowed)
    false

/-- launcher.js `shouldUseLibrary`: a library without rules is used. -/
def shouldUseLibrary (cos : String) (vm : String → Bool)
    (rules : Option (List Rule)) : Bool :=
  match rules with
  | none => true
  | some rs => shouldUseLibraryRules cos vm rs

theorem checkRulesList_eq_all (cos : String) (vm : String → Bool)
    (rules : List Rule) :
    checkRulesList cos vm rules = rules.all (argRuleApplies cos vm) := by
  induction rules with
  | nil => rfl
  | cons r t ih =>
    rw [checkRulesList, List.all_cons]
    by_cases h : argRuleApplies cos vm r = true
    · rw [if_pos h, h, Bool.true_and, ih]
    · have hf : argRuleApplies cos vm r = false := Bool.eq_false_iff.mpr h
      rw [if_neg h, hf, Bool.false_and]

theorem shouldUseLibraryRules_foldl (cos : String) (vm : String → Bool) :
    ∀ (rules : List Rule) (acc : Bool),
    rules.foldl
        (fun allowed r =>
          if ruleMatches cos vm r then ruleAction r else allowed) acc
      = (match rules.reverse.find? (ruleMatches cos vm) with
         | some r => ruleAction r
         | none => acc) := by
  intro rules
  induction rules with
  | nil => intro acc; rfl
  | cons r t ih =>
    intro acc
    rw [List.foldl_cons, ih, List.reverse_cons, List.find?_append]
    cases hf : t.reverse.find? (ruleMatches cos vm) with
    | some r2 => rfl
    | none =>
      rw [Option.none_or]
      by_cases hm : ruleMatches cos vm r = true
      · simp [List.find?_cons, hm]
      · have hmf : ruleMatches cos vm r = false := Bool.eq_false_iff.mpr hm
        simp [List.find?_cons, hmf]

/-- Claim C4 (amended): the argument rule evaluator is the AND of all
per-rule outcomes, but the library rule evaluator returns the action of
the LAST matching rule (false when rules are present and none match), so
the two evaluators do not agree on one semantics. -/
theorem claim4_rule_semantics (cos : String) (vm : String → Bool)
    (rules : List Rule) :
    checkArgConditions cos vm (some rules)
      = rules.all (argRuleApplies cos vm)
    ∧ shouldUseLibrary cos vm (some rules)
      = (match rules.reverse.find? (ruleMatches cos vm) with
         | some r => ruleAction r
         | none => false) := by
  constructor
  · exact checkRulesList_eq_all cos vm rules
  · exact shouldUseLibraryRules_foldl cos vm rules false

/-- Claim C4 counterexample: on the rule list [disallow, allow] (both
unconditional, hence both matching) the library evaluator returns true —
the matching disallow rule does NOT veto, the last rule alone decides —
while the argument evaluator returns false: the two evaluators disagree. -/
theorem claim4_counterexample :
    shouldUseLibrary "linux" (fun _ => true)
        (some [Rule.mk (some "disallow") none false,
               Rule.mk (some "allow") none false]) = true
    ∧ checkArgConditions "linux" (fun _ => true)
        (some [Rule.mk (some "disallow") none false,
               Rule.mk (some "allow") none false]) = false := by
  decide

/-! ## Virtual/legacy asset materialization

launcher.js `createVirtualAssets` (lines 1432-1470) and the identical
asset-verifier.js copy (lines 437-477) copy each object of a virtual asset
index from the hash-addressed store into the flat legacy tree; the
pre-launch game.js `ensureVirtualAssetsSetup` copy loop (lines 923-947 of
the game module) additionally skips destinations that already exist. -/

/-- Store path of an object: `objects/<hash[0:2]>/<hash>` under the assets
directory. -/
def objectPath (dir h : String) : String :=
  dir ++ "/objects/" ++ String.mk (h.data.take 2) ++ "/" ++ h

/-- Legacy path of an object: `virtual/legacy/<logical name>` under the
assets directory. -/
def virtualPath (dir n : String) : String :=
  dir ++ "/virtual/legacy/" ++ n

/-- launcher.js `createVirtualAssets`: for every `(name, hash)` object
whose source exists in the store, copy it onto the legacy path of its
name — unconditionally, with no existing-destination check. -/
def createVirtualAssets (dir : String) (fs : FS)
    (objects : List (String × String)) : FS :=
  objects.foldl (fun fs2 e =>
    match fs2 (objectPath dir e.2) with
    | some content => fsWrite fs2 (virtualPath dir e.1) content
    | none => fs2) fs

/-- The copy loop of game.js `ensureVirtualAssetsSetup`: as above but the
copy is skipped when the destination already exists. -/
def ensureVirtualAssetsCopy (dir : String) (fs : FS)
    (objects : List (String × String)) : FS :=
  objects.foldl (fun fs2 e =>
    match fs2 (objectPath dir e.2) with
    | some content =>
      match fs2 (virtualPath dir e.1) with
      | none => fsWrite fs2 (virtualPath dir e.1) content
      | some _ => fs2
    | none => fs2) fs

theorem string_append_left_cancel {a b c : String} (h : a ++ b = a ++ c) :
    b = c := by
  apply String.ext
  have hd := congrArg String.data h
  rw [String.data_append, String.data_append] at hd
  exact List.append_cancel_left hd

theorem virtualPath_inj {dir n1 n2 : String}
    (h : virtualPath dir n1 = virtualPath dir n2) : n1 = n2 := by
  unfold virtualPath at h
  exact string_append_left_cancel h

theorem createVirtualAssets_cons (dir : String) (fs : FS)
    (e : String × String) (t : List (String × String)) :
    createVirtualAssets dir fs (e :: t) =
      createVirtualAssets dir
        (match fs (objectPath dir e.2) with
         | some content => fsWrite fs (virtualPath dir e.1) content
         | none => fs) t := rfl

theorem createVirtualAssets_preserves (dir : String) :
    ∀ (objects : List (String × String)) (fs : FS) (p : String),
    (∀ e ∈ objects, virtualPath dir e.1 ≠ p) →
    (createVirtualAssets dir fs objects) p = fs p := by
  intro objects
  induction objects with
  | nil => intro fs p _; rfl
  | cons e t ih =>
    intro fs p hne
    rw [createVirtualAssets_cons]
    cases hs : fs (objectPath dir e.2) with
    | none =>
      simp only [hs]
      exact ih fs p (fun e2 he2 => hne e2 (List.mem_cons_of_mem e he2))
    | some content =>
      simp only [hs]
      rw [ih (fsWrite fs (virtualPath dir e.1) content) p
        (fun e2 he2 => hne e2 (List.mem_cons_of_mem e he2))]
      unfold fsWrite
      rw [if_neg (fun hh => hne e (List.mem_cons_self e t) hh.symm)]

/-- Claim C8 (amended), part of the materialization behavior: with
pairwise-distinct logical names and legacy paths disjoint from store
paths, `createVirtualAssets` ends with each object's legacy path holding
exactly its store content — including when a destination already existed:
the copy overwrites rather than skips. -/
theorem createVirtualAssets_copies (dir : String) :
    ∀ (objects : List (String × String)) (fs : FS) (n h c : String),
    (objects.map Prod.fst).Nodup →
    (∀ e ∈ objects, ∀ e2 ∈ objects,
      virtualPath dir e.1 ≠ objectPath dir e2.2) →
    (n, h) ∈ objects →
    fs (objectPath dir h) = some c →
    (createVirtualAssets dir fs objects) (virtualPath dir n) = some c := by
  intro objects
  induction objects with
  | nil => intro fs n h c _ _ hmem _; exact absurd hmem (List.not_mem_nil _)
  | cons e t ih =>
    intro fs n h c hnd hdisj hmem hsrc
    rw [List.map_cons, List.nodup_cons] at hnd
    rcases List.mem_cons.mp hmem with heq | hmem2
    · subst heq
      rw [createVirtualAssets_cons]
      simp only [hsrc]
      rw [createVirtualAssets_preserves dir t _ _ ?neq]
      case neq =>
        intro e2 he2 habs
        exact hnd.1 ((List.mem_map.mpr ⟨e2, he2, virtualPath_inj habs⟩))
      unfold fsWrite
      rw [if_pos rfl]
    · rw [createVirtualAssets_cons]
      cases hs : fs (objectPath dir e.2) with
      | none =>
        simp only [hs]
        exact ih fs n h c hnd.2
          (fun a ha b hb => hdisj a (List.mem_cons_of_mem e ha) b
            (List.mem_cons_of_mem e hb))
          hmem2 hsrc
      | some content =>
        simp only [hs]
        apply ih _ n h c hnd.2
          (fun a ha b hb => hdisj a (List.mem_cons_of_mem e ha) b
            (List.mem_cons_of_mem e hb))
          hmem2
        unfold fsWrite
        rw [if_neg]
        · exact hsrc
        · exact fun hh => hdisj e (List.mem_cons_self e t) (n, h) hmem hh.symm

theorem ensureVirtualAssetsCopy_cons (dir : String) (fs : FS)
    (e : String × String) (t : List (String × String)) :
    ensureVirtualAssetsCopy dir fs (e :: t) =
      ensureVirtualAssetsCopy dir
        (match fs (objectPath dir e.2) with
         | some content =>
           match fs (virtualPath dir e.1) with
           | none => fsWrite fs (virtualPath dir e.1) content
           | some _ => fs
         | none => fs) t := rfl

theorem ensureVirtualAssetsCopy_preserves (dir : String) :
    ∀ (objects : List (String × String)) (fs : FS) (n c0 : String),
    fs (virtualPath dir n) = some c0 →
    (ensureVirtualAssetsCopy dir fs objects) (virtualPath dir n)
      = some c0 := by
  intro objects
  induction objects with
  | nil => intro fs n c0 h; exact h
  | cons e t ih =>
    intro fs n c0 h
    rw [ensureVirtualAssetsCopy_cons]
    cases hs : fs (objectPath dir e.2) with
    | none =>
      simp only [hs]
      exact ih fs n c0 h
    | some content =>
      simp only [hs]
      cases hd : fs (virtualPath dir e.1) with
      | some c1 =>
        simp only [hd]
        exact ih fs n c0 h
      | none =>
        simp only [hd]
        by_cases hpe : virtualPath dir e.1 = virtualPath dir n
        · rw [hpe] at hd
          rw [hd] at h
          exact Option.noConfusion h
        · apply ih
          unfold fsWrite
          rw [if_neg (fun hh => hpe hh.symm)]
          exact h

/-- Claim C8 (amended): materialization copies each object whose source
exists from the hash-addressed store onto the legacy path of its logical
name, but `createVirtualAssets` copies UNCONDITIONALLY — an existing
destination is overwritten, not skipped; only the pre-launch
`ensureVirtualAssetsSetup` copy loop skips existing destinations and is
idempotent in the claimed sense. -/
theorem claim8_virtual_materialization (dir : String) (fs : FS)
    (objects : List (String × String)) (n h c : String)
    (hnd : (objects.map Prod.fst).Nodup)
    (hdisj : ∀ e ∈ objects, ∀ e2 ∈ objects,
      virtualPath dir e.1 ≠ objectPath dir e2.2)
    (hmem : (n, h) ∈ objects)
    (hsrc : fs (objectPath dir h) = some c) :
    (createVirtualAssets dir fs objects) (virtualPath dir n) = some c
    ∧ (∀ c0 : String, fs (virtualPath dir n) = some c0 →
        (ensureVirtualAssetsCopy dir fs objects) (virtualPath dir n)
          = some c0) :=
  ⟨createVirtualAssets_copies dir objects fs n h c hnd hdisj hmem hsrc,
    fun c0 h0 => ensureVirtualAssetsCopy_preserves dir objects fs n c0 h0⟩

/-- Claim C8 counterexample: an object whose destination already exists
(content `old`) is NOT skipped by `createVirtualAssets` — the destination
is overwritten with the store content `new`. -/
theorem claim8_counterexample :
    (fun p => if p = "assets/objects/ab/abcd" then some "new"
              else if p = "assets/virtual/legacy/icons/icon.png"
              then some "old" else none : FS)
        "assets/virtual/legacy/icons/icon.png" = some "old"
    ∧ (createVirtualAssets "assets"
        (fun p => if p = "assets/objects/ab/abcd" then some "new"
                  else if p = "assets/virtual/legacy/icons/icon.png"
                  then some "old" else none)
        [("icons/icon.png", "abcd")]) "assets/virtual/legacy/icons/icon.png"
      = some "new"
    ∧ "new" ≠ "old" := by
  decide

/-- Witness instantiating `claim8_virtual_materialization` on a concrete
one-object index whose destination already exists. -/
theorem claim8_virtual_materialization_witness :
    ([("icons/icon.png", "abcd")].map Prod.fst).Nodup
    ∧ ((createVirtualAssets "assets"
        (fun p => if p = "assets/objects/ab/abcd" then some "new"
                  else if p = "assets/virtual/legacy/icons/icon.png"
                  then some "old" else none)
        [("icons/icon.png", "abcd")])
        (virtualPath "assets" "icons/icon.png") = some "new"
      ∧ (∀ c0 : String,
          (fun p => if p = "assets/objects/ab/abcd" then some "new"
                    else if p = "assets/virtual/legacy/icons/icon.png"
                    then some "old" else none : FS)
            (virtualPath "assets" "icons/icon.png") = some c0 →
          (ensureVirtualAssetsCopy "assets"
            (fun p => if p = "assets/objects/ab/abcd" then some "new"
                      else if p = "assets/virtual/legacy/icons/icon.png"
                      then some "old" else none)
            [("icons/icon.png", "abcd")])
            (virtualPath "assets" "icons/icon.png") = some c0)) :=
  ⟨by decide,
    claim8_virtual_materialization "assets" _ [("icons/icon.png", "abcd")]
      "icons/icon.png" "abcd" "new" (by decide) (by decide) (by decide)
      (by decide)⟩

/-! ## Bounded-concurrency download pool (utils.js downloadFilesParallel)

utils.js lines 69-115: `downloadFilesParallel` starts
`min(concurrency, queue.length)` copies of `processNext`; each copy
synchronously shifts the head of the queue, awaits its download, records
the outcome in `results` or `errors`, and when the queue is non-empty
continues with the next task.  The embedding is a small-step relation on a
pool state: each worker slot holds its in-flight task; a step completes
one worker's task (recording its outcome, decided by the deterministic
`ok` predicate) and either takes the next task from the queue or goes
idle when the queue is empty.  The asynchronous completion order is the
scheduler's nondeterministic choice of which worker steps. -/

structure PoolState (α : Type) where
  queue : List α
  workers : List (Option α)
  results : List α
  errors : List α

/-- The state right after the initial batch of `processNext` calls: the
first `min(concurrency, n)` tasks are in flight, the rest still queued. -/
def initPoolState {α : Type} (k : Nat) (tasks : List α) : PoolState α :=
  ⟨tasks.drop k, (tasks.take k).map some, [], []⟩

/-- One scheduler step of the pool. -/
inductive PoolStep {α : Type} (ok : α → Bool) :
    PoolState α → PoolState α → Prop where
  | finish (s : PoolState α) (i : Nat) (t : α)
      (hw : s.workers.get? i = some (some t)) (hq : s.queue = []) :
      PoolStep ok s
        ⟨[], s.workers.set i none,
          if ok t then s.results ++ [t] else s.results,
          if ok t then s.errors else s.errors ++ [t]⟩
  | next (s : PoolState α) (i : Nat) (t u : α) (rest : List α)
      (hw : s.workers.get? i = some (some t)) (hq : s.queue = u :: rest) :
      PoolStep ok s
        ⟨rest, s.workers.set i (some u),
          if ok t then s.results ++ [t] else s.results,
          if ok t then s.errors else s.errors ++ [t]⟩

/-- States the pool can reach from the initial batch. -/
def PoolReachable {α : Type} (ok : α → Bool) (k : Nat) (tasks : List α)
    (s : PoolState α) : Prop :=
  Relation.ReflTransGen (PoolStep ok) (initPoolState k tasks) s

/-- Number of tasks currently in flight. -/
def inFlight {α : Type} (s : PoolState α) : Nat :=
  (s.workers.filterMap id).length

/-- Every task of the run, each counted once: finished (either way), in
flight, or still queued. -/
def poolMultiset {α : Type} (s : PoolState α) : Multiset α :=
  (s.results : Multiset α) + (s.errors : Multiset α)
    + (s.workers.filterMap id : Multiset α) + (s.queue : Multiset α)

/-- The pool invariant: fixed worker-slot count, conservation of the task
multiset, and a busy worker whenever tasks remain queued. -/
def PoolInv {α : Type} (tasks : List α) (k : Nat) (s : PoolState α) :
    Prop :=
  s.workers.length = (tasks.take k).length
  ∧ poolMultiset s = (tasks : Multiset α)
  ∧ (s.queue ≠ [] → ∃ (i : Nat) (t : α), s.workers.get? i = some (some t))

theorem filterMap_id_set_multiset {α : Type} :
    ∀ (l : List (Option α)) (i : Nat) (t : α) (a : Option α),
    l.get? i = some (some t) →
    ((l.set i a).filterMap id : Multiset α) + {t}
      = (l.filterMap id : Multiset α) + (a.toList : Multiset α) := by
  intro l
  induction l with
  | nil => intro i t a h; simp at h
  | cons x xs ih =>
    intro i t a h
    cases i with
    | zero =>
      simp only [List.get?] at h
      have hx := Option.some.inj h
      subst hx
      simp only [List.set]
      cases a with
      | none =>
        simp [List.filterMap_cons, ← Multiset.cons_coe, ← Multiset.singleton_add]
        abel
      | some u =>
        simp [List.filterMap_cons, ← Multiset.cons_coe, ← Multiset.singleton_add]
        abel
    | succ j =>
      simp only [List.get?] at h
      simp only [List.set]
      cases x with
      | none =>
        simp only [List.filterMap_cons]
        exact ih j t a h
      | some y =>
        simp only [List.filterMap_cons, id]
        rw [← Multiset.cons_coe, ← Multiset.cons_coe, Multiset.cons_add, ih j t a h,
          Multiset.cons_add]

theorem pool_add_lemma {α : Type} (res err fl fl2 q2 extra tasks : Multiset α)
    (t : α) (hsur : fl2 + {t} = fl + extra)
    (hm : res + err + fl + extra + q2 = tasks) :
    res + {t} + err + fl2 + q2 = tasks := by
  calc res + {t} + err + fl2 + q2 = res + err + q2 + (fl2 + {t}) := by abel
    _ = res + err + q2 + (fl + extra) := by rw [hsur]
    _ = res + err + fl + extra + q2 := by abel
    _ = tasks := hm

theorem pool_add_lemma2 {α : Type} (res err fl fl2 q2 extra tasks : Multiset α)
    (t : α) (hsur : fl2 + {t} = fl + extra)
    (hm : res + err + fl + extra + q2 = tasks) :
    res + (err + {t}) + fl2 + q2 = tasks := by
  calc res + (err + {t}) + fl2 + q2 = res + err + q2 + (fl2 + {t}) := by abel
    _ = res + err + q2 + (fl + extra) := by rw [hsur]
    _ = res + err + fl + extra + q2 := by abel
    _ = tasks := hm

theorem poolInv_init {α : Type} (k : Nat) (tasks : List α) (hk : 1 ≤ k) :
    PoolInv tasks k (initPoolState k tasks) := by
  refine ⟨by simp [initPoolState], ?_, ?_⟩
  · unfold poolMultiset initPoolState
    have hfm : List.filterMap id ((tasks.take k).map some) = tasks.take k := by
      rw [List.filterMap_map]
      have h2 : (id ∘ some : α → Option α) = some := rfl
      rw [h2, List.filterMap_some]
    simp only [hfm, Multiset.coe_nil, zero_add]
    rw [Multiset.coe_add, List.take_append_drop]
  · intro hq
    cases tasks with
    | nil => simp [initPoolState] at hq
    | cons t ts =>
      cases k with
      | zero => omega
      | succ k2 => exact ⟨0, t, rfl⟩

theorem poolInv_step {α : Type} {ok : α → Bool} {tasks : List α} {k : Nat}
    {s s2 : PoolState α} (hinv : PoolInv tasks k s)
    (hstep : PoolStep ok s s2) : PoolInv tasks k s2 := by
  cases hstep with
  | finish i t hw hq =>
    refine ⟨by rw [List.length_set]; exact hinv.1, ?_, fun hq2 => absurd rfl hq2⟩
    have hsur := filterMap_id_set_multiset s.workers i t none hw
    simp only [Option.toList, Multiset.coe_nil, add_zero] at hsur
    have hm := hinv.2.1
    unfold poolMultiset at hm
    rw [hq] at hm
    simp only [Multiset.coe_nil, add_zero] at hm
    have hm2 : (s.results : Multiset α) + s.errors
        + (s.workers.filterMap id : Multiset α) + 0 + 0 = tasks := by
      simpa using hm
    unfold poolMultiset
    simp only [Multiset.coe_nil, add_zero]
    by_cases hok : ok t = true
    · simp only [hok, if_true]
      simp only [← Multiset.coe_add, Multiset.coe_singleton]
      have hp := pool_add_lemma _ _ _ _ 0 0 _ t (by simpa using hsur) hm2
      simpa using hp
    · have hokf : ok t = false := Bool.eq_false_iff.mpr hok
      simp only [hokf, Bool.false_eq_true, if_false]
      simp only [← Multiset.coe_add, Multiset.coe_singleton]
      have hp := pool_add_lemma2 _ _ _ _ 0 0 _ t (by simpa using hsur) hm2
      simpa using hp
  | next i t u rest hw hq =>
    refine ⟨by rw [List.length_set]; exact hinv.1, ?_, ?_⟩
    · have hsur := filterMap_id_set_multiset s.workers i t (some u) hw
      simp only [Option.toList] at hsur
      have hm := hinv.2.1
      unfold poolMultiset at hm
      rw [hq] at hm
      have hm2 : (s.results : Multiset α) + s.errors
          + (s.workers.filterMap id : Multiset α) + {u}
          + (rest : Multiset α) = tasks := by
        rw [← hm]
        rw [← Multiset.cons_coe, ← Multiset.singleton_add]
        abel
      unfold poolMultiset
      by_cases hok : ok t = true
      · simp only [hok, if_true]
        simp only [← Multiset.coe_add, Multiset.coe_singleton]
        exact pool_add_lemma _ _ _ _ _ {u} _ t (by simpa using hsur) hm2
      · have hokf : ok t = false := Bool.eq_false_iff.mpr hok
        simp only [hokf, Bool.false_eq_true, if_false]
        simp only [← Multiset.coe_add, Multiset.coe_singleton]
        exact pool_add_lemma2 _ _ _ _ _ {u} _ t (by simpa using hsur) hm2
    · intro hq2
      refine ⟨i, u, ?_⟩
      rw [List.get?_set_eq, hw]
      rfl

theorem poolInv_reachable {α : Type} {ok : α → Bool} {k : Nat}
    {tasks : List α} {s : PoolState α} (hk : 1 ≤ k)
    (hreach : PoolReachable ok k tasks s) : PoolInv tasks k s := by
  induction hreach with
  | refl => exact poolInv_init k tasks hk
  | tail h1 h2 ih => exact poolInv_step ih h2

/-- Claim C7 (amended with concurrency at least 1): in every reachable
pool state at most k tasks are in flight and the task multiset is
conserved (each task is in exactly one of: results, errors, in-flight,
queue — consumed exactly once); on completion (no worker busy) the counts
of succeeded and failed tasks sum to the number submitted. -/
theorem claim7_bounded_pool {α : Type} (ok : α → Bool) (k : Nat)
    (tasks : List α) (s : PoolState α) (hk : 1 ≤ k)
    (hreach : PoolReachable ok k tasks s) :
    inFlight s ≤ k
    ∧ poolMultiset s = (tasks : Multiset α)
    ∧ ((∀ w ∈ s.workers, w = none) →
        s.results.length + s.errors.length = tasks.length) := by
  have hinv := poolInv_reachable hk hreach
  refine ⟨?_, hinv.2.1, ?_⟩
  · calc inFlight s ≤ s.workers.length := List.length_filterMap_le _ _
      _ = (tasks.take k).length := hinv.1
      _ ≤ k := by
          rw [List.length_take]
          exact Nat.min_le_left k tasks.length
  · intro hall
    have hfm : s.workers.filterMap id = [] :=
      List.filterMap_eq_nil_iff.mpr (fun a ha => by rw [hall a ha]; rfl)
    have hq : s.queue = [] := by
      by_contra hne
      rcases hinv.2.2 hne with ⟨i, t, hw⟩
      exact Option.noConfusion (hall _ (List.get?_mem hw))
    have hm := hinv.2.1
    unfold poolMultiset at hm
    rw [hq, hfm] at hm
    have hcard := congrArg Multiset.card hm
    simpa using hcard

/-- Claim C7 counterexample: with concurrency 0 and one task the initial
state is already complete (no worker exists, so no step is possible and
the JS function returns immediately), yet succeeded + failed = 0 while
the total is 1 — the claim fails for the concurrency bound k = 0. -/
theorem claim7_counterexample :
    (initPoolState 0 [(0 : Nat)]).workers = []
    ∧ (∀ w ∈ (initPoolState 0 [(0 : Nat)]).workers, w = none)
    ∧ (∀ s2 : PoolState Nat,
        ¬ PoolStep (fun _ => true) (initPoolState 0 [(0 : Nat)]) s2)
    ∧ (initPoolState 0 [(0 : Nat)]).results.length
        + (initPoolState 0 [(0 : Nat)]).errors.length = 0
    ∧ [(0 : Nat)].length = 1 := by
  refine ⟨rfl, by simp [initPoolState], ?_, rfl, rfl⟩
  intro s2 hstep
  cases hstep with
  | finish i t hw hq => simp [initPoolState] at hw
  | next i t u rest hw hq => simp [initPoolState] at hw

/-- Witness instantiating `claim7_bounded_pool` at the initial state of a
one-task pool with concurrency 1. -/
theorem claim7_bounded_pool_witness :
    1 ≤ 1
    ∧ PoolReachable (fun _ => true) 1 [(7 : Nat)] (initPoolState 1 [7])
    ∧ (inFlight (initPoolState 1 [(7 : Nat)]) ≤ 1
      ∧ poolMultiset (initPoolState 1 [(7 : Nat)]) = ([7] : Multiset Nat)
      ∧ ((∀ w ∈ (initPoolState 1 [(7 : Nat)]).workers, w = none) →
          (initPoolState 1 [(7 : Nat)]).results.length
            + (initPoolState 1 [(7 : Nat)]).errors.length = 1)) :=
  ⟨Nat.le_refl 1, Relation.ReflTransGen.refl,
    by
      have h := claim7_bounded_pool (fun _ => true) 1 [(7 : Nat)]
        (initPoolState 1 [7]) (Nat.le_refl 1) Relation.ReflTransGen.refl
      simpa using h⟩

end FL
